import Mathlib

/-!
Shallow embedding of `vpe_sitter/listen.py`: the incremental-parse
controller (`InprogressParseOperation`), the per-buffer `Listener`, the
highlight-span cache (`SyntaxLineSpans`) and the byte-offset to
codepoint-offset mapping (`IndexMapper`, `build_byte_to_codeppoint_table`).

Modelling conventions:
* Machine integers are `Nat`/`Int` (Python integers are unbounded, so no
  wrap-around is modelled).
* Tree-sitter `Tree` and `Query` objects are opaque: a tree is represented
  by a `Nat` identifier that models Python object identity (`is`); the
  engine's behaviour during one parse attempt is an explicit
  `ParseOutcome` parameter (timeout, or success with a fresh tree id and
  the engine-computed changed ranges).
* Side effects (calls to `tree.edit`, `parser.parse`,
  `parse_done_callback`, `vpe.call_soon(self.start)` and `vpe.Timer`) are
  recorded as an ordered `Event` list returned alongside the new state.
* Fallible operations (Python `IndexError`) are modelled with `Option`.
-/

/-- Sentinel line offset meaning "to the end of the line"
(`TO_END_OF_LINE = 0x7fff_ffff` in `listen.py`). -/
def TO_END_OF_LINE : Nat := 0x7fffffff

/-- A zero-based (row, column) point as used by Tree-sitter; the column is
a byte offset.  Fields are `Int` because `Listener.handle_changes` can
build points with arbitrary Python-integer arithmetic. -/
structure Point where
  row_index : Int
  column_index : Int
deriving Repr, DecidableEq

/-- Details of a tree-sitter syntax tree edit operation
(`SyntaxTreeEdit` in `listen.py`). -/
structure SyntaxTreeEdit where
  start_byte : Nat
  old_end_byte : Nat
  new_end_byte : Nat
  start_point : Point
  old_end_point : Point
  new_end_point : Point
deriving Repr, DecidableEq

/-- The observable actions of `InprogressParseOperation`, in the order the
Python code performs them: an engine `tree.edit(...)` call, a
`parser.parse(...)` call, the `parse_done_callback(affected_lines)`
notification, a `vpe.call_soon(self.start)` request and a
`vpe.Timer(ms, self._try_parse)` continuation. -/
inductive Event where
  | treeEdit (e : SyntaxTreeEdit)
  | parseCall
  | notify (ranges : List (Int × Int))
  | scheduleStart
  | scheduleTimer (ms : Nat)
deriving Repr, DecidableEq

/-- What the engine does during one `parser.parse` call: raise the timeout
`ValueError`, or return a fresh tree (identified by `treeId`) whose
`changed_ranges` diff against the previous tree has the given
`(start_point.row, end_point.row)` pairs. -/
inductive ParseOutcome where
  | timeout
  | success (treeId : Nat) (changedRanges : List (Nat × Nat))
deriving Repr, DecidableEq

/-- The mutable state of `InprogressParseOperation`: the `active` flag,
the `pending_changes` backlog, the accumulated `affected_lines`, the
current `tree` (`none` initially, otherwise the tree's identity), the
retry `timer` (delay in ms when set), the snapshot of the buffer `lines`
and the parser's `timeout_micros` setting. -/
structure PState where
  active : Bool
  pending : List SyntaxTreeEdit
  affected : List (Int × Int)
  tree : Option Nat
  timer : Option Nat
  lines : List String
  timeoutMicros : Nat
deriving Repr, DecidableEq

/-- The nested `update_changed` function of
`InprogressParseOperation.start`: shift already-recorded affected ranges
by the line delta of one applied edit (clamping the shifted bounds at 0)
and append the edit's own `(start_row, new_end_row)` range. -/
def updateChanged (affected : List (Int × Int)) (startP oldEndP newEndP : Point) :
    List (Int × Int) :=
  let s := startP.row_index
  let ne := newEndP.row_index
  let oe := oldEndP.row_index
  let delta := oe - ne
  let adjusted :=
    if delta ≠ 0 then
      affected.map (fun ab =>
        if ab.2 ≤ s then ab
        else if oe ≤ ab.1 then (max 0 (ab.1 + delta), max (ab.2 + delta) 0)
        else if delta < 0 then (max 0 (ab.1 + delta), max ab.2 0)
        else (max 0 ab.1, max (ab.2 + delta) 0))
    else affected
  adjusted ++ [(s, ne)]

/-- The body of `InprogressParseOperation.start` up to (excluding) the
`_try_parse()` call: clear `affected_lines`; if there are pending changes
and a tree exists, apply each pending edit to the tree (recorded as
`Event.treeEdit`, in list order) while folding `update_changed`; clear
`pending_changes`; set `active`, snapshot the buffer `lines` and set
`timeout_micros = 5000`. -/
def startPre (st : PState) (buf : List String) : PState × List Event :=
  let st1 : PState := { st with affected := [] }
  let next : PState × List Event :=
    if st1.pending.isEmpty then (st1, [])
    else
      match st1.tree with
      | some _ =>
          let affected := st1.pending.foldl
            (fun acc e => updateChanged acc e.start_point e.old_end_point e.new_end_point)
            st1.affected
          ({ st1 with affected := affected, pending := [] },
           st1.pending.map Event.treeEdit)
      | none => ({ st1 with pending := [] }, [])
  ({ next.1 with active := true, lines := buf, timeoutMicros := 5000 }, next.2)

/-- `InprogressParseOperation._try_parse`: call the engine; on the timeout
`ValueError`, schedule a 10 ms retry timer (`_schedule_reparse`) and leave
all other state untouched; on success, extend `affected_lines` with the
tree-diff ranges (only when a previous tree existed), store the new tree,
clear `active` and the timer, invoke `parse_done_callback` with
`affected_lines`, and schedule a fresh `start` if edits arrived
meanwhile. -/
def tryParse (st : PState) (outcome : ParseOutcome) : PState × List Event :=
  match outcome with
  | ParseOutcome.timeout =>
      ({ st with timer := some 10 }, [Event.parseCall, Event.scheduleTimer 10])
  | ParseOutcome.success treeId changedRanges =>
      let changed := if st.tree.isSome then changedRanges else []
      let affected := st.affected ++ changed.map (fun r => ((r.1 : Int), (r.2 : Int)))
      let st1 : PState :=
        { st with
          tree := some treeId
          active := false
          timer := none
          affected := affected }
      let evs := [Event.parseCall, Event.notify affected] ++
        (if st1.pending.isEmpty then [] else [Event.scheduleStart])
      (st1, evs)

/-- `InprogressParseOperation.start`: the pre-parse phase followed by one
`_try_parse` attempt with the given engine outcome. -/
def start (st : PState) (buf : List String) (outcome : ParseOutcome) :
    PState × List Event :=
  let pre := startPre st buf
  let post := tryParse pre.1 outcome
  (post.1, pre.2 ++ post.2)

/-- `InprogressParseOperation.add_edit`: append the edit to
`pending_changes`; when no parse is active, request `vpe.call_soon(self.start)`. -/
def addEdit (st : PState) (e : SyntaxTreeEdit) : PState × List Event :=
  ({ st with pending := st.pending ++ [e] },
   if st.active then [] else [Event.scheduleStart])

/-! ### Byte offsets and the byte-to-codepoint mapping -/

/-- Number of bytes the UTF-8 encoding of one character occupies, written
with the thresholds used by `build_byte_to_codeppoint_table` (one table
entry is appended for the character, plus one per extra byte when
`ord(c)` reaches `0x80`, `0x800` and `0x10000`). -/
def charUtf8Len (c : Char) : Nat :=
  if c.toNat < 0x80 then 1
  else if c.toNat < 0x800 then 2
  else if c.toNat < 0x10000 then 3
  else 4

/-- `len(text.encode("utf-8"))` for a list of characters. -/
def utf8Len (cs : List Char) : Nat := (cs.map charUtf8Len).sum

/-- The `offsets` array built by `build_byte_to_codeppoint_table`: for each
character, its codepoint index repeated once per byte of its UTF-8
encoding. -/
def byteTable : List Char → Nat → List Nat
  | [], _ => []
  | c :: rest, off => List.replicate (charUtf8Len c) off ++ byteTable rest (off + 1)

/-- `IndexMapper.__getitem__`: the constructor replaces an empty base map
with `[0]`; an in-range index is looked up directly, and any index past
the end returns `base_map[-1] + index - len(base_map) + 1` (the
`IndexError` branch), so the mapping is total. -/
def indexMapperGet (baseMap : List Nat) (index : Nat) : Nat :=
  let bm := if baseMap.isEmpty then [0] else baseMap
  if index < bm.length then bm.getD index 0
  else bm.getLastD 0 + index - bm.length + 1

/-- `build_byte_to_codeppoint_table`: the identity mapping for an empty or
pure-ASCII line (encoded length equal to character count), otherwise an
`IndexMapper` over the per-character offsets table. -/
def buildByteToCodepointTable (text : String) : Nat → Nat :=
  if text.data.isEmpty then fun i => i
  else if utf8Len text.data = text.data.length then fun i => i
  else indexMapperGet (byteTable text.data 0)

/-- Byte offset at which character number `j` of the line starts. -/
def byteOffset (cs : List Char) (j : Nat) : Nat := utf8Len (cs.take j)

/-! ### The buffer listener -/

/-- `itertools.accumulate([len(line.encode()) + 1 for line in lines],
initial=init)`: the running byte offsets of line starts, one entry per
line plus the final total. -/
def computeOffsets : List String → Nat → List Nat
  | [], init => [init]
  | l :: rest, init => init :: computeOffsets rest (init + (utf8Len l.data + 1))

/-- Python list indexing with a possibly negative index: negative indices
count from the end; out-of-range access is `none` (`IndexError`). -/
def pyGet (l : List Nat) (i : Int) : Option Nat :=
  if 0 ≤ i then l.get? i.toNat
  else if (-i) ≤ (l.length : Int) then l.get? (l.length - (-i).toNat)
  else none

/-- `Listener.handle_changes` for one host change notification: read the
start and old-end byte offsets from the current table, rebuild the table
from `start_lidx` onward from the buffer's current lines, read the new
end byte at `end_lidx + added` from the rebuilt table, and produce the
`SyntaxTreeEdit` handed to `add_edit`.  `none` models an uncaught
`IndexError` (the code carries a `TODO: Protect against IndexError`
comment and performs no clamping). -/
def handleChanges (byteOffsets : List Nat) (buf : List String)
    (start_lidx end_lidx : Nat) (added : Int) :
    Option (List Nat × SyntaxTreeEdit) := do
  let start_byte ← byteOffsets.get? start_lidx
  let old_end_byte ← byteOffsets.get? end_lidx
  let start_offset ← byteOffsets.get? start_lidx
  let newOffsets := byteOffsets.take start_lidx ++
    computeOffsets (buf.drop start_lidx) start_offset
  let new_end_byte ← pyGet newOffsets ((end_lidx : Int) + added)
  pure (newOffsets,
    { start_byte := start_byte
      old_end_byte := old_end_byte
      new_end_byte := new_end_byte
      start_point := ⟨(start_lidx : Int), 0⟩
      old_end_point := ⟨(end_lidx : Int), 0⟩
      new_end_point := ⟨(end_lidx : Int) + added, 0⟩ })

/-! ### The highlight-span cache -/

/-- A within-line syntax item `(start_col, end_col, capture_name)`. -/
abbrev InlineSyntaxItem := Nat × Nat × String

/-- The state of `SyntaxLineSpans`: the snapshot lines, the tree and query
references (object identities, `none` initially), the set of computed
blocks and the per-line highlight lists. -/
structure CacheState where
  lines : List String
  tree : Option Nat
  query : Option Nat
  highlightedBlocks : List Nat
  highlights : List (Nat × List InlineSyntaxItem)
deriving Repr, DecidableEq

/-- `SyntaxLineSpans.set_snapshot`: when the passed tree is not the stored
object (`self._tree is not tree`), clear the cached highlights and blocks
and store the new query, tree and lines (empty lines when query or tree is
`None`); when it is the same object, do nothing at all. -/
def setSnapshot (st : CacheState) (lines : List String)
    (query : Option Nat) (tree : Option Nat) : CacheState :=
  if st.tree ≠ tree then
    { st with
      highlights := []
      highlightedBlocks := []
      query := query
      tree := tree
      lines := if query = none ∨ tree = none then [] else lines }
  else st

/-- `SyntaxLineSpans.BLOCK_SIZE`. -/
def BLOCK_SIZE : Nat := 50

/-- One captured node's `(start_point, end_point)` rows and byte columns. -/
structure NodeRange where
  startRow : Nat
  startCol : Nat
  endRow : Nat
  endCol : Nat
deriving Repr, DecidableEq

/-- The raw per-line highlight lists, as a total function from line index
to the list accumulated so far (`self._highlights` is a `defaultdict`). -/
def appendHighlight (hs : Nat → List InlineSyntaxItem) (row : Nat)
    (item : InlineSyntaxItem) : Nat → List InlineSyntaxItem :=
  fun r => if r = row then hs r ++ [item] else hs r

/-- The capture-collection loop of `_build_part_of_highlight_map` for one
node: a single-line node adds one `(start_col, end_col, name)` item; a
multi-line node adds a first-line item ending at `TO_END_OF_LINE`, a
`(0, TO_END_OF_LINE, name)` item for every interior row and a
`(0, end_col, name)` item on the last row, each guarded by
`row < line_count`. -/
def addNodeHighlights (lineCount : Nat) (name : String)
    (hs : Nat → List InlineSyntaxItem) (node : NodeRange) :
    Nat → List InlineSyntaxItem :=
  if node.startRow = node.endRow then
    if node.startRow < lineCount then
      appendHighlight hs node.startRow (node.startCol, node.endCol, name)
    else hs
  else
    let hs1 := if node.startRow < lineCount then
        appendHighlight hs node.startRow (node.startCol, TO_END_OF_LINE, name)
      else hs
    let hs2 := (List.range (node.endRow - (node.startRow + 1))).foldl
      (fun acc i =>
        if node.startRow + 1 + i < lineCount then
          appendHighlight acc (node.startRow + 1 + i) (0, TO_END_OF_LINE, name)
        else acc)
      hs1
    if node.endRow < lineCount then
      appendHighlight hs2 node.endRow (0, node.endCol, name)
    else hs2

/-- All raw highlights from the query's captures (a mapping from capture
name to matched nodes), collected in iteration order. -/
def collectCaptures (captures : List (String × List NodeRange)) (lineCount : Nat) :
    Nat → List InlineSyntaxItem :=
  captures.foldl (fun hs p => p.2.foldl (addNodeHighlights lineCount p.1) hs)
    (fun _ => [])

/-- The `realign_highlight` step for one line: remap the byte columns of
each item to codepoint columns with the line's byte-to-codepoint table. -/
def realignLine (text : String) (items : List InlineSyntaxItem) :
    List InlineSyntaxItem :=
  items.map (fun it =>
    (buildByteToCodepointTable text it.1, buildByteToCodepointTable text it.2.1, it.2.2))

/-- The Python sort key `h[:2]`: lexicographic order on
`(start_col, end_col)`.  `list.sort` is stable, as is
`List.insertionSort` with this reflexive-on-equal-keys order. -/
def spanLe (a b : InlineSyntaxItem) : Prop :=
  a.1 < b.1 ∨ (a.1 = b.1 ∧ a.2.1 ≤ b.2.1)

instance : DecidableRel spanLe := fun a b => by
  unfold spanLe; exact inferInstance

instance : IsTotal InlineSyntaxItem spanLe :=
  ⟨by intro a b; unfold spanLe; omega⟩

instance : IsTrans InlineSyntaxItem spanLe :=
  ⟨by intro a b c; unfold spanLe; omega⟩

/-- The containment test `c <= a <= d and c <= b <= d` of the
obscured-highlight removal loop: `kept`'s range fully covers `item`'s. -/
def sliceContains (kept item : InlineSyntaxItem) : Bool :=
  decide (kept.1 ≤ item.1 ∧ item.1 ≤ kept.2.1 ∧ kept.1 ≤ item.2.1 ∧ item.2.1 ≤ kept.2.1)

/-- The obscured-highlight removal loop of `_build_part_of_highlight_map`:
walk the sorted list in reverse, keep an item only when no
already-kept item's range fully contains it, and store the kept items —
in that reversed processing order — back into the line's list. -/
def pruneObscured : List InlineSyntaxItem → List InlineSyntaxItem →
    List InlineSyntaxItem
  | kept, [] => kept
  | kept, h :: rest =>
      if kept.any (fun k => sliceContains k h) then pruneObscured kept rest
      else pruneObscured (kept ++ [h]) rest

/-- The span list `_build_part_of_highlight_map` leaves in
`self._highlights[index]` for a line of the computed block: raw captured
items for the line, byte columns realigned to codepoints, sorted by
`(start, end)`, then filtered by the reverse-order obscured-span removal
(whose output order is the reversed sorted order). -/
def blockLineSpans (captures : List (String × List NodeRange)) (lines : List String)
    (index : Nat) : List InlineSyntaxItem :=
  let raw := collectCaptures captures lines.length index
  let realigned := realignLine (lines.getD index "") raw
  let sorted := realigned.insertionSort spanLe
  pruneObscured [] sorted.reverse

/-! ### Concrete fixtures used by witnesses and counterexamples -/

/-- A trivial edit record (all bytes and points zero). -/
def edit0 : SyntaxTreeEdit :=
  ⟨0, 0, 0, ⟨0, 0⟩, ⟨0, 0⟩, ⟨0, 0⟩⟩

/-- An edit whose three points carry only row information. -/
def lineEdit (s oe ne : Int) : SyntaxTreeEdit :=
  ⟨0, 0, 0, ⟨s, 0⟩, ⟨oe, 0⟩, ⟨ne, 0⟩⟩

/-- A controller state with a parse in flight, one pending edit and an
existing tree. -/
def stActive : PState :=
  { active := true
    pending := [edit0]
    affected := []
    tree := some 1
    timer := none
    lines := []
    timeoutMicros := 5000 }

/-- A cache state with a stored tree, query, one computed block and one
cached line. -/
def cache0 : CacheState :=
  { lines := ["a"]
    tree := some 5
    query := some 1
    highlightedBlocks := [0]
    highlights := [(0, [(0, 1, "k")])] }

/-! ### Helper lemmas about the byte-to-codepoint table -/

theorem charUtf8Len_pos (c : Char) : 1 ≤ charUtf8Len c := by
  unfold charUtf8Len
  split
  · omega
  split
  · omega
  split <;> omega

theorem utf8Len_cons (c : Char) (cs : List Char) :
    utf8Len (c :: cs) = charUtf8Len c + utf8Len cs := by
  simp [utf8Len]

theorem length_le_utf8Len (cs : List Char) : cs.length ≤ utf8Len cs := by
  induction cs with
  | nil => simp [utf8Len]
  | cons c rest ih =>
      have := charUtf8Len_pos c
      simp only [utf8Len_cons, List.length_cons]
      omega

theorem byteTable_length (cs : List Char) (off : Nat) :
    (byteTable cs off).length = utf8Len cs := by
  induction cs generalizing off with
  | nil => simp [byteTable, utf8Len]
  | cons c rest ih => simp [byteTable, utf8Len_cons, ih]

theorem allOne_of_utf8Len_eq (cs : List Char) (h : utf8Len cs = cs.length) :
    ∀ c ∈ cs, charUtf8Len c = 1 := by
  induction cs with
  | nil => simp
  | cons c rest ih =>
      have h1 := charUtf8Len_pos c
      have h2 := length_le_utf8Len rest
      rw [utf8Len_cons, List.length_cons] at h
      intro x hx
      rcases List.mem_cons.mp hx with hx | hx
      · subst hx; omega
      · exact ih (by omega) x hx

theorem utf8Len_of_allOne (cs : List Char) (h : ∀ c ∈ cs, charUtf8Len c = 1) :
    utf8Len cs = cs.length := by
  induction cs with
  | nil => simp [utf8Len]
  | cons c rest ih =>
      rw [utf8Len_cons, List.length_cons, h c (List.mem_cons_self c rest),
        ih (fun x hx => h x (List.mem_cons_of_mem c hx))]
      omega

theorem byteOffset_zero (cs : List Char) : byteOffset cs 0 = 0 := by
  simp [byteOffset, utf8Len]

theorem byteOffset_succ (c : Char) (cs : List Char) (j : Nat) :
    byteOffset (c :: cs) (j + 1) = charUtf8Len c + byteOffset cs j := by
  simp [byteOffset, List.take_succ_cons, utf8Len_cons]

theorem byteOffset_add_lt (cs : List Char) (j k : Nat) (hj : j < cs.length)
    (hk : k < charUtf8Len (cs.get ⟨j, hj⟩)) :
    byteOffset cs j + k < utf8Len cs := by
  induction cs generalizing j with
  | nil => simp at hj
  | cons c rest ih =>
      cases j with
      | zero =>
          simp only [List.get] at hk
          rw [byteOffset_zero, utf8Len_cons]
          omega
      | succ j' =>
          simp only [List.get] at hk
          have := ih j' (by simpa using hj) hk
          rw [byteOffset_succ, utf8Len_cons]
          omega

theorem byteTable_getD (cs : List Char) (off j k : Nat) (hj : j < cs.length)
    (hk : k < charUtf8Len (cs.get ⟨j, hj⟩)) :
    (byteTable cs off).getD (byteOffset cs j + k) 0 = off + j := by
  induction cs generalizing off j with
  | nil => simp at hj
  | cons c rest ih =>
      cases j with
      | zero =>
          simp only [List.get] at hk
          rw [byteOffset_zero, byteTable]
          rw [List.getD_append _ _ _ _ (by simpa using hk)]
          rw [List.getD_eq_getElem?_getD,
            List.getElem?_eq_getElem (by simpa using hk)]
          simp
      | succ j' =>
          simp only [List.get] at hk
          have hj' : j' < rest.length := by simpa using hj
          rw [byteOffset_succ, byteTable]
          rw [List.getD_append_right _ _ _ _ (by simp; omega)]
          have : charUtf8Len c + byteOffset rest j' + k -
              (List.replicate (charUtf8Len c) off).length = byteOffset rest j' + k := by
            simp; omega
          rw [this, ih (off + 1) j' hj' hk]
          omega

theorem byteOffset_of_allOne (cs : List Char) (j : Nat) (hj : j ≤ cs.length)
    (h : ∀ c ∈ cs, charUtf8Len c = 1) : byteOffset cs j = j := by
  have : utf8Len (cs.take j) = (cs.take j).length :=
    utf8Len_of_allOne _ (fun c hc => h c (List.mem_of_mem_take hc))
  rw [byteOffset, this, List.length_take]
  omega

theorem indexMapperGet_of_lt (bm : List Nat) (i : Nat) (hne : bm.isEmpty = false)
    (hlt : i < bm.length) : indexMapperGet bm i = bm.getD i 0 := by
  unfold indexMapperGet
  simp [hne, hlt]

theorem byteTable_mem_le (cs : List Char) (off : Nat) :
    ∀ x ∈ byteTable cs off, off ≤ x := by
  induction cs generalizing off with
  | nil => simp [byteTable]
  | cons c rest ih =>
      intro x hx
      rw [byteTable, List.mem_append] at hx
      rcases hx with hx | hx
      · rw [List.mem_replicate] at hx
        omega
      · have := ih (off + 1) x hx
        omega

theorem byteTable_sorted (cs : List Char) (off : Nat) :
    (byteTable cs off).Pairwise (· ≤ ·) := by
  induction cs generalizing off with
  | nil => simp [byteTable]
  | cons c rest ih =>
      rw [byteTable, List.pairwise_append]
      refine ⟨?_, ih (off + 1), ?_⟩
      · rw [List.pairwise_replicate]
        right
        exact le_refl off
      · intro a ha b hb
        rw [List.mem_replicate] at ha
        have := byteTable_mem_le rest (off + 1) b hb
        omega

theorem sorted_getD_le (l : List Nat) (hs : l.Pairwise (· ≤ ·)) (i j : Nat)
    (hij : i ≤ j) (hj : j < l.length) : l.getD i 0 ≤ l.getD j 0 := by
  rcases Nat.lt_or_ge i j with hlt | hge
  · have hi : i < l.length := lt_trans hlt hj
    rw [List.getD_eq_getElem?_getD, List.getD_eq_getElem?_getD,
      List.getElem?_eq_getElem hi, List.getElem?_eq_getElem hj]
    exact List.pairwise_iff_get.mp hs ⟨i, hi⟩ ⟨j, hj⟩ hlt
  · have : i = j := by omega
    rw [this]

theorem sorted_getD_le_getLastD (l : List Nat) (hs : l.Pairwise (· ≤ ·))
    (hne : l ≠ []) (i : Nat) (hi : i < l.length) : l.getD i 0 ≤ l.getLastD 0 := by
  have hlen : 0 < l.length := List.length_pos.mpr hne
  have : l.getLastD 0 = l.getD (l.length - 1) 0 := by
    rw [List.getLastD_eq_getLast?, List.getLast?_eq_getElem?, List.getD_eq_getElem?_getD]
  rw [this]
  exact sorted_getD_le l hs i (l.length - 1) (by omega) (by omega)

theorem indexMapperGet_mono_aux (m : List Nat) (hs : m.Pairwise (· ≤ ·)) (hne : m ≠ [])
    (i j : Nat) (hij : i ≤ j) :
    (if i < m.length then m.getD i 0 else m.getLastD 0 + i - m.length + 1) ≤
    (if j < m.length then m.getD j 0 else m.getLastD 0 + j - m.length + 1) := by
  have hlen : 0 < m.length := List.length_pos.mpr hne
  by_cases hj : j < m.length
  · rw [if_pos hj, if_pos (lt_of_le_of_lt hij hj)]
    exact sorted_getD_le m hs i j hij hj
  · rw [if_neg hj]
    by_cases hi : i < m.length
    · rw [if_pos hi]
      have h1 := sorted_getD_le_getLastD m hs hne i hi
      omega
    · rw [if_neg hi]
      omega

theorem indexMapperGet_mono (bm : List Nat) (hs : bm.Pairwise (· ≤ ·))
    (i j : Nat) (hij : i ≤ j) : indexMapperGet bm i ≤ indexMapperGet bm j := by
  unfold indexMapperGet
  by_cases hbe : bm.isEmpty = true
  · rw [if_pos hbe]
    exact indexMapperGet_mono_aux [0] (by simp) (by simp) i j hij
  · rw [if_neg hbe]
    have hne : bm ≠ [] := by
      intro h
      rw [h] at hbe
      exact hbe rfl
    exact indexMapperGet_mono_aux bm hs hne i j hij

/-! ### Helper lemmas about the obscured-span removal -/

theorem pruneObscured_eq_append (l : List InlineSyntaxItem) :
    ∀ kept, ∃ s, s.Sublist l ∧ pruneObscured kept l = kept ++ s := by
  induction l with
  | nil =>
      intro kept
      exact ⟨[], List.nil_sublist [], by simp [pruneObscured]⟩
  | cons h rest ih =>
      intro kept
      by_cases hc : kept.any (fun k => sliceContains k h) = true
      · obtain ⟨s, hs, he⟩ := ih kept
        refine ⟨s, hs.cons h, ?_⟩
        simp only [pruneObscured]
        rw [if_pos hc, he]
      · obtain ⟨s, hs, he⟩ := ih (kept ++ [h])
        refine ⟨h :: s, hs.cons₂ h, ?_⟩
        simp only [pruneObscured]
        rw [if_neg hc, he]
        simp

theorem pruneObscured_pairwise (l : List InlineSyntaxItem) :
    ∀ kept, kept.Pairwise (fun a b => sliceContains a b = false) →
      (pruneObscured kept l).Pairwise (fun a b => sliceContains a b = false) := by
  induction l with
  | nil =>
      intro kept hk
      simpa [pruneObscured] using hk
  | cons h rest ih =>
      intro kept hk
      simp only [pruneObscured]
      by_cases hc : kept.any (fun k => sliceContains k h) = true
      · rw [if_pos hc]
        exact ih kept hk
      · rw [if_neg hc]
        apply ih
        rw [List.pairwise_append]
        refine ⟨hk, by simp, ?_⟩
        intro a ha b hb
        rw [List.mem_singleton] at hb
        have hall := List.any_eq_false.mp
          (by simpa using hc : kept.any (fun k => sliceContains k h) = false)
        rw [hb]
        simpa using hall a ha

/-! ### Claim theorems -/

/-- C1 counterexample: with two partially overlapping single-line captures
on an ASCII line, the span list `_build_part_of_highlight_map` leaves for
the line is `[(2,5),(0,3)]` — not sorted ascending by start, and the two
spans overlap (`a.start < b.end` and `b.start < a.end`), refuting the
claimed non-overlap and ascending order. -/
theorem blockLineSpans_not_ascending_cex :
    blockLineSpans [("x", [⟨0, 0, 0, 3⟩, ⟨0, 2, 0, 5⟩])] ["abcdef"] 0 =
      [(2, 5, "x"), (0, 3, "x")] ∧
    ¬ (2 ≤ 0) ∧
    ((2 : Nat) < 3 ∧ (0 : Nat) < 5) := by decide

/-- C1 (amended): after block computation the span list for a line is
sorted descending by `(start, end)` (the removal loop walks the sorted
list in reverse and stores the kept items in that reversed order), and no
span is fully contained in a span kept before it; partially overlapping
spans may both remain. -/
theorem blockLineSpans_desc_sorted_no_contained
    (captures : List (String × List NodeRange)) (lines : List String)
    (startIndex index : Nat) (h1 : startIndex ≤ index)
    (h2 : index < min lines.length (startIndex + BLOCK_SIZE)) :
    (blockLineSpans captures lines index).Pairwise (fun a b => spanLe b a) ∧
    (blockLineSpans captures lines index).Pairwise
      (fun a b => sliceContains a b = false) := by
  constructor
  · unfold blockLineSpans
    obtain ⟨s, hs, he⟩ := pruneObscured_eq_append
      (((realignLine (lines.getD index "")
          (collectCaptures captures lines.length index)).insertionSort spanLe).reverse) []
    rw [he, List.nil_append]
    have hsorted : List.Pairwise spanLe
        ((realignLine (lines.getD index "")
          (collectCaptures captures lines.length index)).insertionSort spanLe) :=
      List.sorted_insertionSort spanLe _
    have hrev := List.pairwise_reverse.mpr hsorted
    exact List.Pairwise.sublist hs hrev
  · exact pruneObscured_pairwise _ [] List.Pairwise.nil

/-- C1 witness: the amended theorem applied to a concrete one-capture
block. -/
theorem blockLineSpans_desc_sorted_no_contained_witness :
    (blockLineSpans [("x", [⟨0, 0, 0, 3⟩])] ["abc"] 0).Pairwise
      (fun a b => spanLe b a) ∧
    (blockLineSpans [("x", [⟨0, 0, 0, 3⟩])] ["abc"] 0).Pairwise
      (fun a b => sliceContains a b = false) :=
  blockLineSpans_desc_sorted_no_contained [("x", [⟨0, 0, 0, 3⟩])] ["abc"] 0 0
    (by decide) (by decide)

/-- C2 counterexample: `start()` has no guard on `active`.  Calling
`start` on a state whose `active` flag is true with a non-empty pending
list is not a no-op: the pending list is cleared and a fresh
`parser.parse` attempt is launched. -/
theorem start_not_noop_when_active_cex :
    stActive.active = true ∧ stActive.pending ≠ [] ∧
    (start stActive [] ParseOutcome.timeout).1.pending = [] ∧
    Event.parseCall ∈ (start stActive [] ParseOutcome.timeout).2 := by decide

/-- C2 (amended): the one-in-flight invariant is guarded in `add_edit`,
not in `start`: calling `add_edit` while `active` is true only appends the
edit to `pending_changes` — the stored tree and the `active` flag are
unchanged and no new parse attempt is scheduled. -/
theorem addEdit_only_appends_when_active (st : PState) (e : SyntaxTreeEdit)
    (h : st.active = true) :
    (addEdit st e).1.tree = st.tree ∧
    (addEdit st e).1.pending = st.pending ++ [e] ∧
    (addEdit st e).1.active = st.active ∧
    (addEdit st e).2 = [] := by
  refine ⟨rfl, rfl, rfl, ?_⟩
  simp [addEdit, h]

/-- C2 witness: the amended theorem applied to the concrete active
state. -/
theorem addEdit_only_appends_when_active_witness :
    (addEdit stActive edit0).1.tree = stActive.tree ∧
    (addEdit stActive edit0).1.pending = stActive.pending ++ [edit0] ∧
    (addEdit stActive edit0).1.active = stActive.active ∧
    (addEdit stActive edit0).2 = [] :=
  addEdit_only_appends_when_active stActive edit0 rfl

/-- C3 counterexample: the code has no staleness threshold and no silent
re-parse branch.  A parse completing while `pending_changes` is non-empty
always invokes `parse_done_callback` (here with the diff ranges `[(3,4)]`)
in addition to scheduling a follow-up parse, so no completion ever
re-schedules "without notifying any subscriber". -/
theorem tryParse_notifies_despite_pending_cex :
    stActive.pending ≠ [] ∧
    Event.notify [((3 : Int), (4 : Int))] ∈
      (tryParse stActive (ParseOutcome.success 2 [(3, 4)])).2 ∧
    Event.scheduleStart ∈ (tryParse stActive (ParseOutcome.success 2 [(3, 4)])).2 := by
  decide

/-- C3 (amended): whenever a parse completes while `pending_changes` is
non-empty, the controller unconditionally stores the (stale) tree, clears
`active`, invokes the completion callback with the changed ranges and
schedules a follow-up parse; there is no timing state and no branch that
skips the notification. -/
theorem tryParse_success_with_pending_notifies (st : PState) (tid : Nat)
    (rngs : List (Nat × Nat)) (h : st.pending ≠ []) :
    (tryParse st (ParseOutcome.success tid rngs)).1.tree = some tid ∧
    (tryParse st (ParseOutcome.success tid rngs)).1.active = false ∧
    Event.notify ((tryParse st (ParseOutcome.success tid rngs)).1.affected) ∈
      (tryParse st (ParseOutcome.success tid rngs)).2 ∧
    Event.scheduleStart ∈ (tryParse st (ParseOutcome.success tid rngs)).2 := by
  cases hp : st.pending with
  | nil => exact absurd hp h
  | cons a l => simp [tryParse, hp]

/-- C3 witness: the amended theorem applied to the concrete active
state. -/
theorem tryParse_success_with_pending_notifies_witness :
    (tryParse stActive (ParseOutcome.success 2 [(3, 4)])).1.tree = some 2 ∧
    (tryParse stActive (ParseOutcome.success 2 [(3, 4)])).1.active = false ∧
    Event.notify ((tryParse stActive (ParseOutcome.success 2 [(3, 4)])).1.affected) ∈
      (tryParse stActive (ParseOutcome.success 2 [(3, 4)])).2 ∧
    Event.scheduleStart ∈ (tryParse stActive (ParseOutcome.success 2 [(3, 4)])).2 :=
  tryParse_success_with_pending_notifies stActive 2 [(3, 4)] (by decide)

/-- C4: when a tree exists, `start` applies every pending edit to the tree
exactly once, in arrival order (the engine edit calls are exactly
`pending.map Event.treeEdit`), clears the pending list before the parse is
invoked (the post-`startPre` state has an empty pending list), and only
then performs the `parser.parse` call. -/
theorem start_applies_pending_edits_in_order (st : PState) (buf : List String)
    (o : ParseOutcome) (t : Nat) (h : st.tree = some t) :
    (startPre st buf).1.pending = [] ∧
    (startPre st buf).2 = st.pending.map Event.treeEdit ∧
    (start st buf o).2 =
      st.pending.map Event.treeEdit ++ (tryParse (startPre st buf).1 o).2 ∧
    ∃ tl, (tryParse (startPre st buf).1 o).2 = Event.parseCall :: tl := by
  have h1 : (startPre st buf).1.pending = [] ∧
      (startPre st buf).2 = st.pending.map Event.treeEdit := by
    cases hp : st.pending with
    | nil => simp [startPre, hp]
    | cons a l => simp [startPre, hp, h]
  refine ⟨h1.1, h1.2, ?_, ?_⟩
  · simp [start, h1.2]
  · cases o with
    | timeout => exact ⟨[Event.scheduleTimer 10], rfl⟩
    | success tid rngs => simp [tryParse]

/-- C4 witness: the theorem applied to the concrete active state with one
pending edit. -/
theorem start_applies_pending_edits_in_order_witness :
    (startPre stActive ["x"]).1.pending = [] ∧
    (startPre stActive ["x"]).2 = stActive.pending.map Event.treeEdit ∧
    (start stActive ["x"] ParseOutcome.timeout).2 =
      stActive.pending.map Event.treeEdit ++
        (tryParse (startPre stActive ["x"]).1 ParseOutcome.timeout).2 ∧
    (∃ tl, (tryParse (startPre stActive ["x"]).1 ParseOutcome.timeout).2 =
      Event.parseCall :: tl) :=
  start_applies_pending_edits_in_order stActive ["x"] ParseOutcome.timeout 1 rfl

/-- C5 counterexample: the changed line ranges delivered to
`parse_done_callback` are not merged.  Three edits whose ranges are
`(0,3)`, `(2,5)` and `(10,12)` are delivered exactly as the appended list
`[(0,3),(2,5),(10,12)]` — the first two overlap and the result is not the
claimed merged list `[(0,5),(10,12)]`. -/
theorem start_delivers_unmerged_ranges_cex :
    (start { stActive with
              pending := [lineEdit 0 3 3, lineEdit 2 5 5, lineEdit 10 12 12] }
        [] (ParseOutcome.success 2 [])).2 =
      [Event.treeEdit (lineEdit 0 3 3), Event.treeEdit (lineEdit 2 5 5),
       Event.treeEdit (lineEdit 10 12 12), Event.parseCall,
       Event.notify [(0, 3), (2, 5), (10, 12)]] ∧
    ((0 : Int) < 5 ∧ (2 : Int) < 3) ∧
    [((0 : Int), (3 : Int)), (2, 5), (10, 12)] ≠
      [((0 : Int), (5 : Int)), (10, 12)] := by decide

/-- C5 (amended): `update_changed` never merges: for an edit that does not
change the line count (`old_end.row = new_end.row`, so the adjustment loop
is skipped), the edit's `(start_row, new_end_row)` range is appended to
the accumulated list unmodified, whether or not it touches or overlaps
existing ranges; the delivered list is this unmerged accumulation. -/
theorem updateChanged_appends_without_merging (aff : List (Int × Int))
    (s oe ne : Point) (h : oe.row_index = ne.row_index) :
    updateChanged aff s oe ne = aff ++ [(s.row_index, ne.row_index)] := by
  simp [updateChanged, h]

/-- C5 witness: the amended theorem applied to an overlapping concrete
range. -/
theorem updateChanged_appends_without_merging_witness :
    updateChanged [((1 : Int), (2 : Int))] ⟨4, 0⟩ ⟨6, 0⟩ ⟨6, 0⟩ =
      [((1 : Int), (2 : Int))] ++ [(4, 6)] :=
  updateChanged_appends_without_merging [((1 : Int), (2 : Int))] ⟨4, 0⟩ ⟨6, 0⟩ ⟨6, 0⟩ rfl

/-- C6: evaluation of `handle_changes` at the failing input.  With
byte-offset table `[0,2]` (a one-line buffer `["a"]`), a host report
`start=0, end=1, added=1` while the buffer still holds one line makes the
code read `byte_offsets[end+added] = byte_offsets[2]`, which is out of
range — an uncaught `IndexError` (`none`), not the clamped edit the claim
describes.  The second conjunct shows a change reported at one past the
last known line (`start=1` for old buffer `["a"]`): the produced edit
starts at row 1 with `start_byte = 2`, not at the previous line. -/
theorem handleChanges_out_of_range :
    handleChanges [0, 2] ["a"] 0 1 1 = none ∧
    (handleChanges [0, 2] ["a", "b"] 1 1 1).map
      (fun r => (r.2.start_point.row_index, r.2.start_byte)) = some (1, 2) := by
  decide

/-- C7: the timeout branch of `_try_parse` catches the engine's
`ValueError` locally: the stored tree, the pending list and the `active`
flag are unchanged, the only state change is the 10 ms retry timer, the
only recorded actions are the parse attempt and the timer continuation,
and in particular no completion notification reaches any subscriber. -/
theorem tryParse_timeout_caught_and_silent (st : PState) :
    (tryParse st ParseOutcome.timeout).1.tree = st.tree ∧
    (tryParse st ParseOutcome.timeout).1.pending = st.pending ∧
    (tryParse st ParseOutcome.timeout).1.active = st.active ∧
    (tryParse st ParseOutcome.timeout).1.timer = some 10 ∧
    (tryParse st ParseOutcome.timeout).2 =
      [Event.parseCall, Event.scheduleTimer 10] ∧
    ∀ rs, Event.notify rs ∉ (tryParse st ParseOutcome.timeout).2 := by
  refine ⟨rfl, rfl, rfl, rfl, rfl, ?_⟩
  intro rs hmem
  simp [tryParse] at hmem

/-- C8: the byte-to-codepoint table maps the span `(2,4)` of
`"ab" + "é" + "c"` to `(2,3)`; in general every byte offset inside a
character's UTF-8 encoding maps to that character's codepoint index, and
empty or pure-ASCII lines yield the identity mapping. -/
theorem byte_to_codepoint_table_correct :
    (buildByteToCodepointTable "abéc" 2 = 2 ∧
     buildByteToCodepointTable "abéc" 4 = 3) ∧
    (∀ (text : String) (j k : Nat) (hj : j < text.data.length),
        k < charUtf8Len (text.data.get ⟨j, hj⟩) →
        buildByteToCodepointTable text (byteOffset text.data j + k) = j) ∧
    (∀ i, buildByteToCodepointTable "" i = i) ∧
    (∀ (text : String), utf8Len text.data = text.data.length →
        ∀ i, buildByteToCodepointTable text i = i) := by
  refine ⟨by decide, ?_, fun i => rfl, ?_⟩
  · intro text j k hj hk
    unfold buildByteToCodepointTable
    by_cases he : text.data.isEmpty = true
    · rw [List.isEmpty_iff] at he
      rw [he] at hj
      simp at hj
    · rw [if_neg he]
      by_cases ha : utf8Len text.data = text.data.length
      · have h1 : charUtf8Len (text.data.get ⟨j, hj⟩) = 1 :=
          allOne_of_utf8Len_eq text.data ha _ (text.data.get_mem j hj)
        have hk0 : k = 0 := by omega
        subst hk0
        rw [if_pos ha,
          byteOffset_of_allOne text.data j (le_of_lt hj) (allOne_of_utf8Len_eq text.data ha)]
        omega
      · rw [if_neg ha]
        have hlt : byteOffset text.data j + k < (byteTable text.data 0).length := by
          rw [byteTable_length]
          exact byteOffset_add_lt text.data j k hj hk
        have hne : (byteTable text.data 0).isEmpty = false := by
          cases hbt : byteTable text.data 0 with
          | nil => rw [hbt] at hlt; simp at hlt
          | cons a l => rfl
        rw [indexMapperGet_of_lt _ _ hne hlt, byteTable_getD text.data 0 j k hj hk]
        omega
  · intro text ha i
    unfold buildByteToCodepointTable
    by_cases he : text.data.isEmpty = true
    · rw [if_pos he]
    · rw [if_neg he, if_pos ha]

/-- C8 witness: the general mapping statement applied to byte 3 (the
second byte of `é`) of `"abéc"`. -/
theorem byte_to_codepoint_table_correct_witness :
    buildByteToCodepointTable "abéc" (byteOffset "abéc".data 2 + 1) = 2 :=
  byte_to_codepoint_table_correct.2.1 "abéc" 2 1 (by decide) (by decide)

/-- C9: `set_snapshot` with a tree argument that is the same object as the
stored tree (object identity is modelled by the tree id) leaves the whole
cache state unchanged — cached blocks, per-line spans, stored lines and
stored query included — even when the `lines` and `query` arguments
differ from the stored ones. -/
theorem setSnapshot_same_tree_noop (st : CacheState) (lines : List String)
    (q t : Option Nat) (h : st.tree = t) :
    setSnapshot st lines q t = st := by
  simp [setSnapshot, h]

/-- C9 witness: the theorem applied to a populated cache with differing
`lines` and `query` arguments. -/
theorem setSnapshot_same_tree_noop_witness :
    setSnapshot cache0 ["b", "c"] (some 9) (some 5) = cache0 :=
  setSnapshot_same_tree_noop cache0 ["b", "c"] (some 9) (some 5) rfl

/-- C10: `IndexMapper.__getitem__` is total — any index at or beyond the
table's length (the end-of-line sentinel `TO_END_OF_LINE` included)
returns `base_map[-1] + index - len(base_map) + 1` instead of failing —
and for every table built by `build_byte_to_codeppoint_table` the mapping
is monotonically non-decreasing in the index. -/
theorem indexMapper_total_and_monotone :
    (∀ (bm : List Nat) (index : Nat), bm ≠ [] → bm.length ≤ index →
        indexMapperGet bm index = bm.getLastD 0 + index - bm.length + 1) ∧
    (∀ (text : String) (i j : Nat), i ≤ j →
        buildByteToCodepointTable text i ≤ buildByteToCodepointTable text j) := by
  constructor
  · intro bm index hne hlen
    have hbe : ¬ bm.isEmpty = true := by
      intro h
      exact hne (List.isEmpty_iff.mp h)
    unfold indexMapperGet
    rw [if_neg hbe, if_neg (by omega : ¬ index < bm.length)]
  · intro text i j hij
    unfold buildByteToCodepointTable
    by_cases he : text.data.isEmpty = true
    · rw [if_pos he]
      exact hij
    · rw [if_neg he]
      by_cases ha : utf8Len text.data = text.data.length
      · rw [if_pos ha]
        exact hij
      · rw [if_neg ha]
        exact indexMapperGet_mono (byteTable text.data 0) (byteTable_sorted text.data 0) i j hij

/-- C10 witness: the overflow formula applied to the sentinel index on the
table of `"é"`, and monotonicity applied across the table boundary. -/
theorem indexMapper_total_and_monotone_witness :
    indexMapperGet [0, 1] TO_END_OF_LINE =
      [0, 1].getLastD 0 + TO_END_OF_LINE - [0, 1].length + 1 ∧
    buildByteToCodepointTable "é" 3 ≤ buildByteToCodepointTable "é" 5 :=
  ⟨indexMapper_total_and_monotone.1 [0, 1] TO_END_OF_LINE (by decide) (by decide),
   indexMapper_total_and_monotone.2 "é" 3 5 (by decide)⟩
